import Mathlib

/-! Shallow embedding of src/backend/rag.py: the chunker `chunk_text`, the
index construction and search used by `build_index`/`retrieve`, and the
`RAGPipeline` corpus orchestrator. Text is modelled as `List Char` (Python
str, code-point indexed); embedding vectors as lists of rationals; the
external embedding provider as a function that may fail (`none` models a
raised exception). -/

namespace Rag

/-- Python whitespace characters recognised by `str.strip()`. -/
def isPySpace (c : Char) : Bool :=
  c = ' ' || c = '\t' || c = '\n' || c = '\r' || c = '\x0b' || c = '\x0c'

/-- Python `str.strip()`: drop leading and trailing whitespace. -/
def pyStrip (w : List Char) : List Char :=
  (w.dropWhile isPySpace).rdropWhile isPySpace

/-- Python `str.rfind(sep)` over `w`: the greatest position at which `sep`
occurs in `w`, if any. -/
def rfindPos (w sep : List Char) : Option Nat :=
  ((List.range (w.length + 1)).filter fun p => sep.isPrefixOf (w.drop p)).getLast?

/-- Sentence separators tried, in order, by `chunk_text` (rag.py line 47). -/
def sepMarks : List (List Char) :=
  [['.', ' '], ['.', '\n'], ['!', ' '], ['?', ' '], ['\n', '\n']]

/-- Inner for-loop of `chunk_text` (rag.py lines 47-51): the first separator in
`sepMarks` whose last occurrence in the window lies strictly past
`chunk_size // 2` determines the cut, at that occurrence plus the separator
length; otherwise no early cut. -/
def findBreak (w : List Char) (cs : Nat) : Option Nat :=
  sepMarks.findSome? fun sep =>
    match rfindPos w sep with
    | some p => if cs / 2 < p then some (p + sep.length) else none
    | none => none

/-- End position of the window starting at `start` (rag.py lines 42-51): the
raw window end `start + chunk_size`, snapped back to a sentence boundary when
the window does not already reach the end of the text and a separator
qualifies. -/
def stepEnd (text : List Char) (cs start : Nat) : Nat :=
  if start + cs < text.length then
    match findBreak ((text.drop start).take cs) cs with
    | some e => start + e
    | none => start + cs
  else start + cs

/-- Chunk produced by the window starting at `start` (rag.py line 53):
`text[start:end].strip()`. -/
def stepChunk (text : List Char) (cs start : Nat) : List Char :=
  pyStrip ((text.drop start).take (stepEnd text cs start - start))

/-- While-loop of `chunk_text` (rag.py lines 41-57), with explicit fuel since
the source loop need not terminate: `none` models exceeding the fuel, i.e.
non-termination at any finite bound. `start` is the window start and `acc` the
chunks accumulated so far; empty chunks are dropped (line 54) and the next
window starts at `end - overlap` (line 57). -/
def chunkLoop (text : List Char) (cs ov : Nat) :
    Nat → Nat → List (List Char) → Option (List (List Char))
  | 0, _, _ => none
  | fuel + 1, start, acc =>
    if start < text.length then
      chunkLoop text cs ov fuel (stepEnd text cs start - ov)
        (if (stepChunk text cs start).isEmpty then acc else acc ++ [stepChunk text cs start])
    else some acc

/-- The function `chunk_text` (rag.py lines 23-59). Texts of length at most
`chunk_size` are returned whole (empty text yields no chunks); otherwise the
window scan runs with the given fuel. -/
def chunkTextFuel (fuel : Nat) (text : List Char) (cs ov : Nat) : Option (List (List Char)) :=
  if text.length ≤ cs then some (if text.isEmpty then [] else [text])
  else chunkLoop text cs ov fuel 0 []

/-- The call `chunk_text(doc["text"])` at the default arguments chunk_size=500,
overlap=50, as made by `RAGPipeline._rebuild_index` (rag.py line 153). Fuel
`text.length + 1` is always sufficient there because every iteration advances
the window start by at least 203 characters. -/
def chunk500 (text : List Char) : List (List Char) :=
  (chunkTextFuel (text.length + 1) text 500 50).getD []

/-- Embedding vectors, idealised as lists of rationals (the source holds
float32 rows). -/
abbrev Vec := List ℚ

/-- Inner product of two vectors, the faiss `IndexFlatIP` score. -/
def dotQ (u v : Vec) : ℚ := (List.zipWith (fun a b => a * b) u v).sum

/-- External embedding provider (`create_embeddings`, rag.py lines 62-66):
one vector per input text; `none` models a raised exception or timeout. -/
abbrev Provider := List (List Char) → Option (List Vec)

/-- Provider contract from spec section 6: on success, one vector per input
text, in input order. -/
def GoodProvider (p : Provider) : Prop :=
  ∀ ts vs, p ts = some vs → vs.length = ts.length

/-- Ranking order produced by the index search: strictly higher score first,
equal scores ordered by lower stored position. -/
def scoreRel (a b : Nat × ℚ) : Prop := b.2 < a.2 ∨ (a.2 = b.2 ∧ a.1 ≤ b.1)

instance : DecidableRel scoreRel := fun a b => by
  unfold scoreRel; infer_instance

instance : IsTotal (Nat × ℚ) scoreRel where
  total a b := by
    rcases lt_trichotomy a.2 b.2 with h | h | h
    · exact Or.inr (Or.inl h)
    · rcases Nat.le_total a.1 b.1 with h1 | h1
      · exact Or.inl (Or.inr ⟨h, h1⟩)
      · exact Or.inr (Or.inr ⟨h.symm, h1⟩)
    · exact Or.inl (Or.inl h)

instance : IsTrans (Nat × ℚ) scoreRel where
  trans a b c hab hbc := by
    rcases hab with h1 | ⟨h1, h1'⟩ <;> rcases hbc with h2 | ⟨h2, h2'⟩
    · exact Or.inl (lt_trans h2 h1)
    · exact Or.inl (h2 ▸ h1)
    · exact Or.inl (h1 ▸ h2)
    · exact Or.inr ⟨h1.trans h2, h1'.trans h2'⟩

/-- Modelled from the spec: `faiss.IndexFlatIP.search` is external library code
not present in src/. Per spec section 4.3 the search computes the inner product
of the query against every stored vector and returns the top `k` stored
positions by descending score, ties broken toward the lower stored position;
with fewer than `k` stored vectors it returns all of them. -/
def searchIndex (vecs : List Vec) (q : Vec) (k : Nat) : List (Nat × ℚ) :=
  (List.insertionSort scoreRel (vecs.enum.map fun iv => (iv.1, dotQ iv.2 q))).take k

/-- The function `build_index` (rag.py lines 69-82) stores one vector per
embedding row. `faiss.normalize_L2` rescales each row to unit L2 norm; exact
normalization is not representable over ℚ, so stored vectors are kept as given
and unit length enters as a hypothesis where score bounds are stated. The
stored count equals the row count, which is what the corpus invariants use. -/
def buildIndexFn (embs : List Vec) : List Vec := embs

/-- Result rows of `retrieve` (rag.py lines 104-110): text and score. -/
structure RResult where
  text : List Char
  score : ℚ
deriving DecidableEq

/-- Mapping of search hits to `retrieve` results (rag.py lines 105-110). Every
position produced by `searchIndex` is a natural number below the stored count,
so the `idx >= 0` guard of line 106 never rejects a row (faiss emits -1 fill
values only when asked for more results than stored vectors, which the
`min(top_k, len(chunks))` argument rules out) and is not represented. -/
def retrieveHits (chunks : List (List Char)) (hits : List (Nat × ℚ)) : List RResult :=
  hits.map fun h => { text := chunks.getD h.1 [], score := h.2 }

/-- The function `retrieve` (rag.py lines 85-112): embed the query, search the
index with `min(top_k, len(chunks))`, and package the hits. `none` models a
provider exception (or the IndexError on an empty embedding batch). -/
def retrieveFn (p : Provider) (question : List Char) (index : List Vec)
    (chunks : List (List Char)) (topK : Nat) : Option (List RResult) :=
  match p [question] with
  | none => none
  | some [] => none
  | some (qv :: _) => some (retrieveHits chunks (searchIndex index qv (min topK chunks.length)))

/-- A document as stored by `add_document` (rag.py lines 129-134). -/
structure Doc where
  id : String
  filename : String
  ftype : String
  text : List Char
deriving DecidableEq

/-- Instance state of `RAGPipeline` (rag.py lines 121-125). -/
structure PipelineState where
  documents : List Doc
  chunks : List (List Char)
  chunk_sources : List Nat
  index : Option (List Vec)
deriving DecidableEq

/-- State of a freshly constructed pipeline (rag.py lines 121-125). -/
def pipelineInit : PipelineState :=
  { documents := [], chunks := [], chunk_sources := [], index := none }

/-- Outcome of a mutating pipeline operation: `ok` carries the return value,
`raised` carries the instance state left behind when an exception propagates
out of the method. -/
inductive OpResult (β : Type) where
  | ok (a : β)
  | raised (s : PipelineState)
deriving DecidableEq

/-- Chunk regeneration loop of `_rebuild_index` (rag.py lines 152-155): the
chunk lists of all documents concatenated in document order. -/
def chunksOfDocs (docs : List Doc) : List (List Char) :=
  (docs.map fun d => chunk500 d.text).flatten

/-- Source bookkeeping of the same loop: each chunk records the position of its
owning document in the documents list. -/
def sourcesOfDocs (docs : List Doc) : List Nat :=
  (docs.enum.map fun pr => List.replicate (chunk500 pr.2.text).length pr.1).flatten

/-- The method `_rebuild_index` (rag.py lines 147-161). `chunks` and
`chunk_sources` are reassigned first; the provider is then called on the full
chunk list, and on success a fresh index replaces the old one. A provider
exception (`raised`) leaves the already-reassigned chunks and chunk_sources in
place with the index untouched, exactly as the method body does. -/
def rebuildIndex (p : Provider) (s : PipelineState) : OpResult PipelineState :=
  let cks := chunksOfDocs s.documents
  let srcs := sourcesOfDocs s.documents
  if cks.isEmpty then
    .ok { s with chunks := cks, chunk_sources := srcs, index := none }
  else
    match p cks with
    | some embs =>
      .ok { s with chunks := cks, chunk_sources := srcs, index := some (buildIndexFn embs) }
    | none => .raised { s with chunks := cks, chunk_sources := srcs }

/-- The method `add_document` (rag.py lines 127-135): unconditionally append,
then rebuild. -/
def addDocument (p : Provider) (s : PipelineState) (d : Doc) : OpResult PipelineState :=
  rebuildIndex p { s with documents := s.documents ++ [d] }

/-- The method `remove_document` (rag.py lines 137-145): filter out matching
ids; rebuild only if something was removed; return whether a document was
removed. -/
def removeDocument (p : Provider) (s : PipelineState) (docId : String) :
    OpResult (PipelineState × Bool) :=
  let docs' := s.documents.filter fun d => d.id != docId
  if docs'.length < s.documents.length then
    match rebuildIndex p { s with documents := docs' } with
    | .ok s' => .ok (s', true)
    | .raised st => .raised st
  else .ok (s, false)

/-- Result rows of `query` (rag.py lines 176-182): text, score and the
attributed source filename. -/
structure QResult where
  text : List Char
  score : ℚ
  source : String
deriving DecidableEq

/-- Placeholder document read when a list index is out of range; Python would
raise IndexError there, which cannot happen on states satisfying the corpus
invariants nor in any concrete run considered here. -/
def defaultDoc : Doc := { id := "", filename := "", ftype := "", text := [] }

/-- The method `query` (rag.py lines 163-182): empty result on a missing index
or empty chunk list; otherwise retrieve, then attach to each result row the
filename found by looking the row's text up in the chunk list by value
(`self.chunks.index(result["text"])`, line 177) and mapping the first match
through `chunk_sources`. -/
def queryFn (p : Provider) (s : PipelineState) (question : List Char) (k : Nat) :
    Option (List QResult) :=
  match s.index with
  | none => some []
  | some vecs =>
    if s.chunks.isEmpty then some []
    else
      match retrieveFn p question vecs s.chunks k with
      | none => none
      | some rs => some (rs.map fun r =>
          let ci := s.chunks.findIdx fun c => c == r.text
          let di := s.chunk_sources.getD ci 0
          let d := s.documents.getD di defaultDoc
          { text := r.text, score := r.score, source := d.filename })

/-- The method `query` as a state-passing operation. Its body assigns no
instance field (the dicts it annotates are fresh rows created inside
`retrieve`), so the resulting state consists exactly of the fields the method
read. -/
def queryStep (p : Provider) (s : PipelineState) (question : List Char) (k : Nat) :
    PipelineState × Option (List QResult) :=
  ({ documents := s.documents, chunks := s.chunks, chunk_sources := s.chunk_sources,
     index := s.index }, queryFn p s question k)

/-- Document metadata rows returned by `get_documents` (rag.py lines 184-188). -/
structure DocMeta where
  id : String
  filename : String
  ftype : String
deriving DecidableEq

/-- The method `get_documents` (rag.py lines 184-188) as a state-passing
operation: a pure read returning metadata without full text. -/
def getDocumentsStep (s : PipelineState) : PipelineState × List DocMeta :=
  ({ documents := s.documents, chunks := s.chunks, chunk_sources := s.chunk_sources,
     index := s.index },
   s.documents.map fun d => { id := d.id, filename := d.filename, ftype := d.ftype })

/-- Corpus invariants of spec section 3: the index size matches the chunk count
and the index is absent iff there are no chunks; every chunk source points at a
document present in the corpus; chunks and sources are exactly the
per-document chunk sequences concatenated in document-insertion order. -/
def Inv (s : PipelineState) : Prop :=
  (match s.index with
   | some v => v.length = s.chunks.length ∧ s.chunks ≠ []
   | none => s.chunks = []) ∧
  (∀ i ∈ s.chunk_sources, i < s.documents.length) ∧
  s.chunks = chunksOfDocs s.documents ∧
  s.chunk_sources = sourcesOfDocs s.documents

instance (s : PipelineState) : Decidable (Inv s) := by
  unfold Inv
  cases s.index <;> exact inferInstance

/-- Formalisation of the amended boundary rule of claim C6: the separators are
tried in the fixed order of `sepMarks`, and the cut is taken at last-occurrence
plus separator length for the first separator whose last occurrence lies
strictly past `chunk_size // 2`. Stated via filterMap and head?, independently
of `findBreak`. -/
def claimBreak (w : List Char) (cs : Nat) : Option Nat :=
  (sepMarks.filterMap fun sep =>
    (rfindPos w sep).bind fun p => if cs / 2 < p then some (p + sep.length) else none).head?

/-- Formalisation of the amended per-window rule of claim C6, following the
amended claim's words: when the raw window end `start + chunk_size` still lies
strictly inside the text, the chunk ends at start plus (last occurrence plus
separator length) for the first separator in priority order whose last
occurrence in the window lies strictly past `chunk_size // 2` (`claimBreak`),
or at the raw window end when no separator qualifies; a window whose raw end
reaches or passes the text end is always cut raw — the separator search is
skipped entirely, even when a qualifying separator is present. -/
def claimEnd (t : List Char) (cs start : Nat) : Nat :=
  if start + cs < t.length then
    match claimBreak ((t.drop start).take cs) cs with
    | some e => start + e
    | none => start + cs
  else start + cs

/-- The whole scan as dictated by the amended rule of claim C6: each window's
chunk is the stripped slice from the window start up to `claimEnd`, chunks
empty after stripping are dropped, and the next window starts at
`claimEnd - overlap`; fuel-indexed like the source loop. -/
def claimScan (t : List Char) (cs ov : Nat) :
    Nat → Nat → List (List Char) → Option (List (List Char))
  | 0, _, _ => none
  | fuel + 1, start, acc =>
    if start < t.length then
      claimScan t cs ov fuel (claimEnd t cs start - ov)
        (if (pyStrip ((t.drop start).take (claimEnd t cs start - start))).isEmpty then acc
         else acc ++ [pyStrip ((t.drop start).take (claimEnd t cs start - start))])
    else some acc

/-- Ten copies of the letter a: the failing input exhibited for the missing
overlap guard (claim C3). -/
def loopText : List Char := List.replicate 10 'a'

/-- Concrete text for the boundary-priority counterexample (claim C6). -/
def bText : List Char := "abcdefg. x! yzABCD".toList

/-- Provider that embeds every text as the unit vector [1]. -/
def pOne : Provider := fun ts => some (ts.map fun _ => ([1] : Vec))

/-- Provider that always raises. -/
def pFail : Provider := fun _ => none

def docA : Doc := { id := "a", filename := "a.txt", ftype := "txt", text := "hi".toList }

def docB : Doc := { id := "b", filename := "b.txt", ftype := "txt", text := "yo".toList }

def docSameA : Doc := { id := "a", filename := "a.txt", ftype := "txt", text := "same".toList }

def docSameB : Doc := { id := "b", filename := "b.txt", ftype := "txt", text := "same".toList }

/-- Pipeline state reached from a fresh pipeline by `add_document(docA)` under
provider `pOne`. -/
def sOne : PipelineState :=
  { documents := [docA], chunks := ["hi".toList], chunk_sources := [0], index := some [[1]] }

/-- Pipeline state reached from `sOne` by `add_document(docB)` under `pOne`. -/
def sTwo : PipelineState :=
  { documents := [docA, docB], chunks := ["hi".toList, "yo".toList],
    chunk_sources := [0, 1], index := some [[1], [1]] }

/-- Intermediate state after adding `docSameA` alone. -/
def sSameOne : PipelineState :=
  { documents := [docSameA], chunks := ["same".toList], chunk_sources := [0],
    index := some [[1]] }

/-- Pipeline state holding two documents with identical text, reached by two
`add_document` calls under `pOne`. -/
def sSame : PipelineState :=
  { documents := [docSameA, docSameB], chunks := ["same".toList, "same".toList],
    chunk_sources := [0, 1], index := some [[1], [1]] }

/-- Instance state left behind when `add_document(docA)` on a fresh pipeline
hits a provider exception during the rebuild. -/
def sFailed : PipelineState :=
  { documents := [docA], chunks := ["hi".toList], chunk_sources := [0], index := none }

/-! Helper lemmas. -/

/-- One stuck iteration of the scan loop on `loopText` with
`overlap = chunk_size = 5`: the window start stays at 0 while a chunk is
appended, so the loop never terminates. -/
theorem chunkLoop_stuck (fuel : Nat) (acc : List (List Char)) :
    chunkLoop loopText 5 5 (fuel + 1) 0 acc =
      chunkLoop loopText 5 5 fuel 0 (acc ++ [List.replicate 5 'a']) := rfl

/-- Stripping is idempotent: a stripped string strips to itself. -/
theorem pyStrip_idem (w : List Char) : pyStrip (pyStrip w) = pyStrip w := by
  unfold pyStrip
  have h1 : ((w.dropWhile isPySpace).rdropWhile isPySpace).dropWhile isPySpace =
      (w.dropWhile isPySpace).rdropWhile isPySpace := by
    rcases hcons : (w.dropWhile isPySpace).rdropWhile isPySpace with _ | ⟨c, v'⟩
    · rfl
    · have hc : ¬ isPySpace c = true := by
        obtain ⟨t, ht⟩ := List.rdropWhile_prefix isPySpace (w.dropWhile isPySpace)
        rw [hcons] at ht
        have hune : w.dropWhile isPySpace ≠ [] := by rw [← ht]; simp
        have hhead := List.head_dropWhile_not isPySpace w hune
        have hh : (w.dropWhile isPySpace).head hune = c := by
          rw [List.head_eq_iff_head?_eq_some, ← ht]
          rfl
        rw [hh] at hhead
        simpa using hhead
      rw [List.dropWhile_cons, if_neg hc]
  rw [h1, List.rdropWhile_idempotent]

/-- Every chunk a successful scan-loop run returns (beyond clean accumulator
entries) is non-empty and fixed by stripping. -/
theorem chunkLoop_clean (text : List Char) (cs ov : Nat) :
    ∀ fuel start acc res, (∀ c ∈ acc, c ≠ [] ∧ pyStrip c = c) →
      chunkLoop text cs ov fuel start acc = some res →
      ∀ c ∈ res, c ≠ [] ∧ pyStrip c = c := by
  intro fuel
  induction fuel with
  | zero => intro start acc res hacc h; exact absurd h (by simp [chunkLoop])
  | succ n ih =>
    intro start acc res hacc h
    simp only [chunkLoop] at h
    by_cases hlt : start < text.length
    · rw [if_pos hlt] at h
      refine ih _ _ _ ?_ h
      by_cases hemp : (stepChunk text cs start).isEmpty = true
      · rw [if_pos hemp]; exact hacc
      · rw [if_neg hemp]
        intro c hc
        rcases List.mem_append.mp hc with hc | hc
        · exact hacc c hc
        · rw [List.mem_singleton] at hc
          subst hc
          refine ⟨by simpa using hemp, ?_⟩
          show pyStrip (stepChunk text cs start) = stepChunk text cs start
          unfold stepChunk
          exact pyStrip_idem _
    · rw [if_neg hlt] at h
      injection h with h'
      subst h'
      exact hacc

/-- A first-match search over a list equals the head of the filtered list. -/
theorem findSome?_eq_head?_filterMap {α β : Type} (f : α → Option β) (l : List α) :
    l.findSome? f = (l.filterMap f).head? := by
  induction l with
  | nil => rfl
  | cons a as ih =>
    cases h : f a with
    | none => rw [List.findSome?_cons, List.filterMap_cons, h]; exact ih
    | some b => rw [List.findSome?_cons, List.filterMap_cons, h]; rfl

/-- The code's separator loop computes exactly the priority-order cut of the
amended boundary rule. -/
theorem findBreak_eq_claimBreak (w : List Char) (cs : Nat) :
    findBreak w cs = claimBreak w cs := by
  unfold findBreak claimBreak
  have hf : (fun sep : List Char =>
      match rfindPos w sep with
      | some p => if cs / 2 < p then some (p + sep.length) else none
      | none => none) = (fun sep : List Char =>
      (rfindPos w sep).bind fun p => if cs / 2 < p then some (p + sep.length) else none) := by
    funext sep
    cases h : rfindPos w sep <;> simp [h]
  rw [hf, findSome?_eq_head?_filterMap]

/-- Every chunk source produced by a rebuild points below the document count. -/
theorem sourcesOfDocs_lt (docs : List Doc) : ∀ i ∈ sourcesOfDocs docs, i < docs.length := by
  intro i hi
  unfold sourcesOfDocs at hi
  rw [List.mem_flatten] at hi
  obtain ⟨l, hl, hil⟩ := hi
  rw [List.mem_map] at hl
  obtain ⟨pr, hpr, rfl⟩ := hl
  rw [List.eq_of_mem_replicate hil]
  have h1 : pr.1 ∈ docs.enum.map Prod.fst := List.mem_map_of_mem Prod.fst hpr
  rw [show docs.enum = docs.enumFrom 0 from rfl, List.enumFrom_map_fst] at h1
  obtain ⟨j, hj, hj'⟩ := List.mem_range'.mp h1
  omega

/-- A successful rebuild leaves the corpus satisfying the invariants. -/
theorem rebuildIndex_ok_inv (p : Provider) (hp : GoodProvider p) (s s' : PipelineState)
    (h : rebuildIndex p s = .ok s') : Inv s' := by
  simp only [rebuildIndex] at h
  by_cases hc : (chunksOfDocs s.documents).isEmpty = true
  · rw [if_pos hc] at h
    injection h with h'
    subst h'
    refine ⟨by simpa using hc, ?_, rfl, rfl⟩
    intro i hi
    exact sourcesOfDocs_lt _ i hi
  · rw [if_neg hc] at h
    rcases hm : p (chunksOfDocs s.documents) with _ | embs
    · rw [hm] at h; cases h
    · rw [hm] at h
      injection h with h'
      subst h'
      refine ⟨⟨hp _ _ hm, by simpa using hc⟩, ?_, rfl, rfl⟩
      intro i hi
      exact sourcesOfDocs_lt _ i hi

/-- Number of results returned by the index search. -/
theorem searchIndex_length (vecs : List Vec) (q : Vec) (k : Nat) :
    (searchIndex vecs q k).length = min k vecs.length := by
  unfold searchIndex
  rw [List.length_take, (List.perm_insertionSort scoreRel _).length_eq, List.length_map,
    List.enum_length]

theorem dotQ_nil_left (v : Vec) : dotQ [] v = 0 := rfl

theorem dotQ_nil_right (u : Vec) : dotQ u [] = 0 := by cases u <;> rfl

theorem dotQ_cons (a b : ℚ) (u v : Vec) : dotQ (a :: u) (b :: v) = a * b + dotQ u v := by
  simp [dotQ]

theorem dotQ_self_nonneg (v : Vec) : 0 ≤ dotQ v v := by
  induction v with
  | nil => simp [dotQ]
  | cons a u ih => rw [dotQ_cons]; nlinarith [mul_self_nonneg a]

/-- Cauchy-Schwarz for the list inner product. -/
theorem dotQ_sq_le (u : Vec) : ∀ v : Vec, dotQ u v ^ 2 ≤ dotQ u u * dotQ v v := by
  induction u with
  | nil => intro v; simp [dotQ_nil_left]
  | cons a u ih =>
    intro v
    cases v with
    | nil => simp [dotQ_nil_right]
    | cons b v =>
      rw [dotQ_cons, dotQ_cons, dotQ_cons]
      have h1 := ih v
      have h2 := dotQ_self_nonneg u
      have h3 := dotQ_self_nonneg v
      have h4 : 0 ≤ dotQ u u * dotQ v v - dotQ u v ^ 2 := by linarith
      rcases eq_or_lt_of_le h3 with hB | hB
      · have h5 : dotQ u v ^ 2 = 0 := by
          refine le_antisymm ?_ (sq_nonneg _)
          rw [← hB] at h1
          simpa using h1
        have hs : dotQ u v = 0 := by
          have := sq_eq_zero_iff.mp h5
          exact this
        rw [hs, ← hB]
        nlinarith [mul_nonneg h2 (mul_self_nonneg b)]
      · nlinarith [sq_nonneg (a * dotQ v v - b * dotQ u v),
          mul_nonneg (add_nonneg (mul_self_nonneg b) h3) h4, hB]

/-- Inner products of vectors of at most unit norm lie in the interval
from -1 to 1. -/
theorem dotQ_bound (v q : Vec) (hv : dotQ v v ≤ 1) (hq : dotQ q q ≤ 1) :
    -1 ≤ dotQ v q ∧ dotQ v q ≤ 1 := by
  have h := dotQ_sq_le v q
  have h2 : dotQ v q ^ 2 ≤ 1 := by nlinarith [dotQ_self_nonneg v, dotQ_self_nonneg q]
  exact abs_le.mp ((sq_le_one_iff_abs_le_one (dotQ v q)).mp h2)

/-! Claim theorems. -/

/-- Claim C3 (code_bug evaluation): `chunk_text` has no `overlap < chunk_size`
precondition check; on the ten-character text `"aaaaaaaaaa"` with
`chunk_size = 5, overlap = 5` the window start never advances and the loop
runs forever — the fuel-indexed model returns `none` at every finite fuel,
instead of failing fast with an InvalidInput error as the claim requires. -/
theorem chunk_text_missing_guard_loops :
    (∀ fuel acc, chunkLoop loopText 5 5 fuel 0 acc = none) ∧
    (∀ fuel, chunkTextFuel fuel loopText 5 5 = none) := by
  have key : ∀ fuel acc, chunkLoop loopText 5 5 fuel 0 acc = none := by
    intro fuel
    induction fuel with
    | zero => intro acc; rfl
    | succ n ih => intro acc; rw [chunkLoop_stuck]; exact ih _
  refine ⟨key, fun fuel => ?_⟩
  have hstep : chunkTextFuel fuel loopText 5 5 = chunkLoop loopText 5 5 fuel 0 [] := rfl
  rw [hstep]
  exact key fuel []

/-- Claim C2 (code_bug evaluation): when the embedding provider raises during
the rebuild triggered by `add_document` on a fresh pipeline, the exception
propagates with the document already appended and `chunks`/`chunk_sources`
already reassigned, while the index is left stale — the corpus is not restored
to its pre-call state. -/
theorem add_document_failure_mutates_state :
    addDocument pFail pipelineInit docA = .raised sFailed ∧
    sFailed.documents = [docA] ∧ pipelineInit.documents = [] ∧
    sFailed ≠ pipelineInit := by decide

/-- Claim C1 (code_bug evaluation): with two documents both consisting of the
single chunk `"same"`, a query returning both stored positions attributes the
hit at stored position 1 to `"a.txt"` (the filename of the first document whose
chunk text matches, via `chunks.index(result["text"])`), although chunk 1 is
owned by the second document, whose filename is `"b.txt"`. -/
theorem content_attribution_wrong :
    addDocument pOne pipelineInit docSameA = .ok sSameOne ∧
    addDocument pOne sSameOne docSameB = .ok sSame ∧
    sSame.chunk_sources = [0, 1] ∧
    (sSame.documents.getD 1 defaultDoc).filename = "b.txt" ∧
    searchIndex [[1], [1]] [1] 2 = [(0, 1), (1, 1)] ∧
    queryFn pOne sSame "q".toList 2 =
      some [⟨"same".toList, 1, "a.txt"⟩, ⟨"same".toList, 1, "a.txt"⟩] := by
  have hsearch : searchIndex [[1], [1]] [1] 2 = [(0, 1), (1, 1)] := by
    norm_num [searchIndex, List.insertionSort, List.orderedInsert, dotQ, List.enum,
      List.enumFrom, scoreRel]
  have hretr : retrieveFn pOne "q".toList [[1], [1]] sSame.chunks 2 =
      some [⟨"same".toList, 1⟩, ⟨"same".toList, 1⟩] := by
    simp [retrieveFn, pOne, sSame, retrieveHits, hsearch]; decide
  have hquery : queryFn pOne sSame "q".toList 2 =
      some [⟨"same".toList, 1, "a.txt"⟩, ⟨"same".toList, 1, "a.txt"⟩] := by
    simp only [queryFn, sSame] at hretr ⊢
    rw [hretr]
    simp; decide
  exact ⟨by decide, by decide, by decide, by decide, hsearch, hquery⟩

/-- Claim C4 (counterexample): for the three-character text `" a "`, which is
non-empty and short enough for the single-chunk path, `chunk_text` returns the
text whole — it is not equal to its own strip, so neither "returns exactly one
chunk equal to t.strip()" nor "every chunk is trimmed" holds on this path. -/
theorem chunk_text_short_not_stripped :
    chunkTextFuel 3 " a ".toList 500 50 = some [" a ".toList] ∧
    " a ".toList ≠ "a".toList ∧
    pyStrip " a ".toList = "a".toList := by decide

/-- Claim C4 (amended): for every non-empty text of length at most chunk_size,
`chunk_text` returns exactly one chunk equal to the text itself, untrimmed;
empty input yields an empty sequence; and on the window-scan path (text longer
than chunk_size) every produced chunk is a non-empty string fixed by trimming,
with chunks that are empty after trimming dropped. -/
theorem chunk_text_short_untrimmed_amended :
    (∀ (t : List Char) (cs ov fuel : Nat), t ≠ [] → t.length ≤ cs →
      chunkTextFuel fuel t cs ov = some [t]) ∧
    (∀ cs ov fuel : Nat, chunkTextFuel fuel [] cs ov = some []) ∧
    (∀ (t : List Char) (cs ov fuel : Nat) (res : List (List Char)),
      chunkTextFuel fuel t cs ov = some res → cs < t.length →
      ∀ c ∈ res, c ≠ [] ∧ pyStrip c = c) := by
  refine ⟨?_, ?_, ?_⟩
  · intro t cs ov fuel h1 h2
    simp [chunkTextFuel, h2, h1]
  · intro cs ov fuel
    simp [chunkTextFuel]
  · intro t cs ov fuel res h hcs
    simp only [chunkTextFuel, if_neg (not_le.mpr hcs)] at h
    exact chunkLoop_clean t cs ov fuel 0 [] res (by simp) h

/-- Witness for the amended claim C4 at a concrete input. -/
theorem chunk_text_short_untrimmed_amended_w :
    chunkTextFuel 3 "a".toList 5 1 = some ["a".toList] :=
  chunk_text_short_untrimmed_amended.1 "a".toList 5 1 3 (by decide) (by decide)

/-- Claim C6 (amended): for every text, chunk size, and overlap, EVERY scan
window is cut as follows — when the raw window end `start + chunk_size` lies
strictly inside the text, the chunk ends at last-occurrence plus separator
length for the FIRST separator in the fixed priority order period-space,
period-newline, bang-space, question-space, blank-line whose last occurrence
in the window lies strictly past `chunk_size // 2` (not the last occurrence
among all markers), and at the raw window size when no separator qualifies;
a window whose raw end reaches or passes the text end is always cut raw, the
separator search being skipped even when a qualifying separator is present.
Stated as: the code's per-window cut `stepEnd` equals the amended rule's cut
`claimEnd` at every window start, hence the entire scan loop coincides with
the amended-rule scan `claimScan` from every start and accumulator, and so
does `chunk_text` itself on every text longer than `chunk_size`. -/
theorem chunk_boundary_priority_amended :
    (∀ (t : List Char) (cs start : Nat), stepEnd t cs start = claimEnd t cs start) ∧
    (∀ (t : List Char) (cs ov fuel start : Nat) (acc : List (List Char)),
      chunkLoop t cs ov fuel start acc = claimScan t cs ov fuel start acc) ∧
    (∀ (t : List Char) (cs ov fuel : Nat), cs < t.length →
      chunkTextFuel fuel t cs ov = claimScan t cs ov fuel 0 []) := by
  have hend : ∀ (t : List Char) (cs start : Nat), stepEnd t cs start = claimEnd t cs start := by
    intro t cs start
    unfold stepEnd claimEnd
    rw [findBreak_eq_claimBreak]
  have hloop : ∀ (t : List Char) (cs ov fuel start : Nat) (acc : List (List Char)),
      chunkLoop t cs ov fuel start acc = claimScan t cs ov fuel start acc := by
    intro t cs ov fuel
    induction fuel with
    | zero => intro start acc; rfl
    | succ n ih =>
      intro start acc
      simp only [chunkLoop, claimScan, stepChunk, hend, ih]
  refine ⟨hend, hloop, ?_⟩
  intro t cs ov fuel hcs
  simp only [chunkTextFuel, if_neg (not_le.mpr hcs)]
  exact hloop t cs ov fuel 0 []

/-- Witness for the amended claim C6 at the concrete counterexample text:
`chunk_text` on `bText` follows the amended-rule scan. -/
theorem chunk_boundary_priority_amended_w :
    chunkTextFuel 20 bText 12 2 = claimScan bText 12 2 20 0 [] :=
  chunk_boundary_priority_amended.2.2 bText 12 2 20 (by decide)

/-- Claim C6 (counterexample): on `bText` with `chunk_size = 12, overlap = 2`
the first window is `"abcdefg. x! "`; among all boundary markers the last
occurrence past the midpoint 6 is the `"! "` at position 10, so the claimed
rule would cut at 12 and produce the chunk `"abcdefg. x!"`, but the code tries
`". "` first (last occurrence 7, also past the midpoint) and produces
`"abcdefg."`. -/
theorem chunk_boundary_priority_counterexample :
    (chunkTextFuel 20 bText 12 2).map List.head? = some (some "abcdefg.".toList) ∧
    rfindPos (bText.take 12) ['!', ' '] = some 10 ∧ 12 / 2 < 10 ∧
    (∀ sep ∈ sepMarks, (rfindPos (bText.take 12) sep).getD 0 ≤ 10) ∧
    pyStrip (bText.take (10 + 2)) = "abcdefg. x!".toList ∧
    "abcdefg.".toList ≠ "abcdefg. x!".toList := by decide

/-- Claim C5: after every completed corpus operation — a fresh construction, a
successful `add_document`, a completed `remove_document` (including the no-op
case), a `query`, or a `get_documents` — the corpus invariants hold: index
size equals chunk count with the index absent iff there are no chunks, every
chunk source references a present document, and the chunk sequence is the
in-order concatenation of the per-document chunk sequences. -/
theorem pipeline_invariants (p : Provider) (s : PipelineState)
    (hp : GoodProvider p) (hs : Inv s) :
    Inv pipelineInit ∧
    (∀ d s', addDocument p s d = .ok s' → Inv s') ∧
    (∀ docId s' b, removeDocument p s docId = .ok (s', b) → Inv s') ∧
    (∀ question k, (queryStep p s question k).1 = s ∧ Inv (queryStep p s question k).1) ∧
    ((getDocumentsStep s).1 = s ∧ Inv (getDocumentsStep s).1) := by
  refine ⟨by decide, ?_, ?_, fun question k => ⟨rfl, hs⟩, ⟨rfl, hs⟩⟩
  · intro d s' h
    exact rebuildIndex_ok_inv p hp _ s' h
  · intro docId s' b h
    simp only [removeDocument] at h
    by_cases hlt : (s.documents.filter fun d => d.id != docId).length < s.documents.length
    · rw [if_pos hlt] at h
      cases hr : rebuildIndex p { s with documents := s.documents.filter fun d => d.id != docId } with
      | ok s₁ =>
        rw [hr] at h
        injection h with h'
        have hss : s₁ = s' := congrArg Prod.fst h'
        exact hss ▸ rebuildIndex_ok_inv p hp _ s₁ hr
      | raised st =>
        rw [hr] at h; cases h
    · rw [if_neg hlt] at h
      injection h with h'
      have hss : s = s' := congrArg Prod.fst h'
      exact hss ▸ hs

/-- Witness for claim C5: the hypotheses are satisfiable — removing document
"a" from the concrete one-document state `sOne` under the well-behaved
provider `pOne` completes, and the resulting fresh state satisfies the
invariants. -/
theorem pipeline_invariants_w : Inv pipelineInit :=
  (pipeline_invariants pOne sOne
      (by intro ts vs h; simp only [pOne] at h; injection h with h2; rw [← h2, List.length_map])
      (by decide)).2.2.1 "a" pipelineInit true (by decide)

/-- Claim C7: querying a corpus with no index or no chunks returns the empty
list (not an error) for every question and every k; and on an invariant-
satisfying corpus with n > 0 chunks, a successful query with k > n returns
exactly n results. -/
theorem query_empty_and_k_overflow :
    (∀ (p : Provider) (s : PipelineState) (question : List Char) (k : Nat),
      s.index = none ∨ s.chunks = [] → queryFn p s question k = some []) ∧
    (∀ (p : Provider) (s : PipelineState) (question : List Char) (k : Nat)
      (res : List QResult), Inv s → s.chunks ≠ [] → s.chunks.length < k →
      queryFn p s question k = some res → res.length = s.chunks.length) := by
  constructor
  · intro p s question k h
    rcases hI : s.index with _ | vecs
    · simp [queryFn, hI]
    · rcases h with h | h
      · rw [hI] at h; cases h
      · simp [queryFn, hI, h]
  · intro p s question k res hInv hne hk h
    obtain ⟨hidx, -, -, -⟩ := hInv
    rcases hI : s.index with _ | vecs
    · rw [hI] at hidx; exact absurd hidx hne
    · rw [hI] at hidx
      obtain ⟨hlen, -⟩ := hidx
      simp only [queryFn, hI] at h
      rw [if_neg (by simpa using hne)] at h
      rcases hr : retrieveFn p question vecs s.chunks k with _ | rs
      · rw [hr] at h; cases h
      · rw [hr] at h
        injection h with h'
        subst h'
        simp only [retrieveFn] at hr
        rcases hq : p [question] with _ | qvs
        · rw [hq] at hr; cases hr
        · rw [hq] at hr
          rcases qvs with _ | ⟨qv, rest⟩
          · cases hr
          · injection hr with hr'
            subst hr'
            simp only [retrieveHits, List.length_map, searchIndex_length, hlen]
            rw [Nat.min_eq_right (Nat.le_of_lt hk), Nat.min_self]

/-- Witness for claim C7: the hypotheses are satisfiable — on the concrete
one-chunk state `sOne`, a query with k = 5 succeeds and returns exactly one
result. -/
theorem query_empty_and_k_overflow_w :
    ([⟨"hi".toList, 1, "a.txt"⟩] : List QResult).length = sOne.chunks.length := by
  have hsearch : searchIndex [[1]] [1] 1 = [(0, 1)] := by
    norm_num [searchIndex, List.insertionSort, List.orderedInsert, dotQ, List.enum,
      List.enumFrom, scoreRel]
  have hretr : retrieveFn pOne "q".toList [[1]] sOne.chunks 5 =
      some [⟨"hi".toList, 1⟩] := by
    simp [retrieveFn, pOne, sOne, retrieveHits, hsearch]
  have hq : queryFn pOne sOne "q".toList 5 = some [⟨"hi".toList, 1, "a.txt"⟩] := by
    simp only [queryFn, sOne] at hretr ⊢
    rw [hretr]
    simp
    decide
  exact query_empty_and_k_overflow.2 pOne sOne "q".toList 5 _ (by decide) (by decide)
    (by decide) hq

/-- Claim C9: on a fresh corpus, `add_document(D)` followed by
`remove_document(D.id)` restores a state indistinguishable from the fresh
corpus: empty document list, empty chunk list, empty source list, no index —
and the removal reports success. -/
theorem add_remove_roundtrip (p : Provider) (d : Doc) (s₁ : PipelineState)
    (h : addDocument p pipelineInit d = .ok s₁) :
    removeDocument p s₁ d.id = .ok (pipelineInit, true) := by
  have hdocs : s₁.documents = [d] := by
    simp only [addDocument, rebuildIndex] at h
    by_cases hc : (chunksOfDocs (pipelineInit.documents ++ [d])).isEmpty = true
    · rw [if_pos hc] at h
      injection h with h'
      rw [← h']
      rfl
    · rw [if_neg hc] at h
      rcases hm : p (chunksOfDocs (pipelineInit.documents ++ [d])) with _ | embs
      · rw [hm] at h; cases h
      · rw [hm] at h
        injection h with h'
        rw [← h']
        rfl
  simp only [removeDocument, hdocs]
  have hfilter : [d].filter (fun x => x.id != d.id) = [] := by simp
  rw [hfilter]
  rw [if_pos (by simp)]
  have hreb : rebuildIndex p { s₁ with documents := ([] : List Doc) } = .ok pipelineInit := rfl
  rw [hreb]

/-- Witness for claim C9: the hypotheses are satisfiable — adding `docA` to a
fresh pipeline under `pOne` yields `sOne`, and removing `"a"` then restores
the fresh state. -/
theorem add_remove_roundtrip_w : removeDocument pOne sOne "a" = .ok (pipelineInit, true) :=
  add_remove_roundtrip pOne docA sOne (by decide)

/-- Claim C8: when the stored vectors and the query vector have (at most) unit
norm — which is what `faiss.normalize_L2` establishes before storage and before
search — every score produced by the index search lies between -1 and 1, the
hit list is sorted by strictly descending score with equal scores ordered by
strictly increasing stored position (deterministic ties), and the scores of
the `retrieve` result rows are exactly the hit scores in the same order. -/
theorem search_scores_sorted_bounded (vecs : List Vec) (q : Vec) (k : Nat)
    (hv : ∀ v ∈ vecs, dotQ v v ≤ 1) (hq : dotQ q q ≤ 1) :
    (∀ r ∈ searchIndex vecs q k, -1 ≤ r.2 ∧ r.2 ≤ 1) ∧
    List.Pairwise (fun a b : Nat × ℚ => b.2 < a.2 ∨ (a.2 = b.2 ∧ a.1 < b.1))
      (searchIndex vecs q k) ∧
    (∀ chunks : List (List Char),
      (retrieveHits chunks (searchIndex vecs q k)).map RResult.score =
        (searchIndex vecs q k).map Prod.snd) := by
  refine ⟨?_, ?_, ?_⟩
  · intro r hr
    have hr1 : r ∈ List.insertionSort scoreRel
        (vecs.enum.map fun iv => (iv.1, dotQ iv.2 q)) := (List.take_sublist k _).subset hr
    have hr2 : r ∈ vecs.enum.map fun iv => (iv.1, dotQ iv.2 q) :=
      (List.perm_insertionSort scoreRel _).subset hr1
    obtain ⟨iv, hiv, rfl⟩ := List.mem_map.mp hr2
    have hsnd : iv.2 ∈ vecs := by
      have h4 : iv.2 ∈ vecs.enum.map Prod.snd := List.mem_map_of_mem Prod.snd hiv
      rwa [show vecs.enum = vecs.enumFrom 0 from rfl, List.enumFrom_map_snd] at h4
    exact dotQ_bound iv.2 q (hv _ hsnd) hq
  · have hsorted : List.Pairwise scoreRel (List.insertionSort scoreRel
        (vecs.enum.map fun iv => (iv.1, dotQ iv.2 q))) :=
      List.sorted_insertionSort scoreRel _
    have htake : List.Pairwise scoreRel (searchIndex vecs q k) :=
      hsorted.sublist (List.take_sublist k _)
    have h0 : ((vecs.enum.map fun iv => (iv.1, dotQ iv.2 q)).map Prod.fst).Nodup := by
      rw [List.map_map]
      exact List.nodup_enum_map_fst vecs
    have h1 : ((List.insertionSort scoreRel
        (vecs.enum.map fun iv => (iv.1, dotQ iv.2 q))).map Prod.fst).Nodup :=
      (((List.perm_insertionSort scoreRel _).map Prod.fst).nodup_iff).mpr h0
    have h2 : ((searchIndex vecs q k).map Prod.fst).Nodup :=
      h1.sublist ((List.take_sublist k _).map Prod.fst)
    have h3 : List.Pairwise (fun a b : Nat × ℚ => a.1 ≠ b.1) (searchIndex vecs q k) :=
      List.pairwise_map.mp h2
    refine (htake.and h3).imp ?_
    rintro a b ⟨hrel, hne⟩
    rcases hrel with h | ⟨heq, hle⟩
    · exact Or.inl h
    · exact Or.inr ⟨heq, lt_of_le_of_ne hle hne⟩
  · intro chunks
    rw [retrieveHits, List.map_map]
    rfl

/-- Witness for claim C8: the hypotheses are satisfiable — with stored unit
vectors [1] and [0] and query [1], the hit at stored position 0 carries score
1, which lies between -1 and 1. -/
theorem search_scores_sorted_bounded_w : -1 ≤ (1 : ℚ) ∧ (1 : ℚ) ≤ 1 := by
  have hsearch : searchIndex [[1], [0]] [1] 2 = [(0, 1), (1, 0)] := by
    norm_num [searchIndex, List.insertionSort, List.orderedInsert, dotQ, List.enum,
      List.enumFrom, scoreRel]
  have hv : ∀ v ∈ ([[1], [0]] : List Vec), dotQ v v ≤ 1 := by
    intro v h
    simp only [List.mem_cons, List.not_mem_nil, or_false] at h
    rcases h with rfl | rfl <;> norm_num [dotQ]
  exact (search_scores_sorted_bounded [[1], [0]] [1] 2 hv (by norm_num [dotQ])).1 (0, 1)
    (by rw [hsearch]; simp)

/-- Claim C10: `query` is read-only — the state after a `query` call is exactly
the state before it, field by field (document list, chunk list, chunk-to-
document mapping, index). -/
theorem query_is_readonly (p : Provider) (s : PipelineState) (question : List Char) (k : Nat) :
    (queryStep p s question k).1 = s ∧
    (queryStep p s question k).1.documents = s.documents ∧
    (queryStep p s question k).1.chunks = s.chunks ∧
    (queryStep p s question k).1.chunk_sources = s.chunk_sources ∧
    (queryStep p s question k).1.index = s.index :=
  ⟨rfl, rfl, rfl, rfl, rfl⟩

end Rag
